import Mathlib

/-!
Shallow embedding of `src/pulpsim.py`, a kraft pulping reaction-diffusion
simulation (one liquor compartment coupled to a 1-D chain of wood
compartments).  Machine floats are idealised as real numbers; the one
floating-point behaviour the claims depend on, namely numpy producing an
invalid value (NaN) when a negative base is raised to a fractional power,
is modelled by `npow`, which returns `none` in that case.  Module-level
configuration globals read from `parameters.csv` become the `Params`
structure, and the compartment count `Ncompartments` is an explicit
natural-number argument.
-/

namespace PulpSim

/-- Component order from the source: Lignin, Carbohydrate, Alkali, Sulfur. -/
def components : List String := ["Lignin", "Carbohydrate", "Alkali", "Sulfur"]

/-- Molar masses, `componentsMM = [1., 1., 1., 1.]` in the source. -/
def componentsMM : Fin 4 → ℝ := fun _ => 1

/-- Number of tracked components, `Ncomponents = len(components)`. -/
def Ncomponents : ℕ := 4

/-- Physical and model parameters read once from `parameters.csv` plus the
model-selection indicators `y`, `g` set at module load.  In the source these
are ambient globals; here they are passed explicitly. -/
structure Params where
  A : ℝ
  liquor_volume : ℝ
  wood_volume : ℝ
  wood_mass : ℝ
  density : ℝ
  porinf : ℝ
  phase_limit_1 : ℝ
  phase_limit_2 : ℝ
  Ti : ℝ
  Tmax : ℝ
  toTmax : ℝ
  y : ℝ
  g : ℝ

/-- Flattened state: moles of each of the 4 components in the liquor
compartment and in each of the `Nk` wood compartments, in the row-major
layout produced by `numpy.ndarray.flatten`. -/
abbrev Flat (Nk : ℕ) : Type := Fin (4 * (Nk + 1)) → ℝ

/-- Safe lookup into a flat state; out-of-range reads, which the source
never performs, return 0. -/
def xget {Nk : ℕ} (x : Flat Nk) (n : ℕ) : ℝ :=
  if h : n < 4 * (Nk + 1) then x ⟨n, h⟩ else 0

/-- `flatx(liquor, wood)`: concatenate the liquor vector as column 0 with
the wood matrix, then flatten row-major (numpy C order), as in
`numpy.concatenate((liquor[:, None], wood), axis=1).flatten()`. -/
def flatx (Nk : ℕ) (liquor : Fin 4 → ℝ) (wood : Fin 4 → Fin Nk → ℝ) :
    Flat Nk := fun f =>
  if h0 : f.val % (Nk + 1) = 0 then
    liquor ⟨f.val / (Nk + 1), (Nat.div_lt_iff_lt_mul (Nat.succ_pos Nk)).2 f.isLt⟩
  else
    wood ⟨f.val / (Nk + 1), (Nat.div_lt_iff_lt_mul (Nat.succ_pos Nk)).2 f.isLt⟩
      ⟨f.val % (Nk + 1) - 1, by
        have h : f.val % (Nk + 1) < Nk + 1 := Nat.mod_lt f.val (by omega)
        omega⟩

/-- `unflatx(x)`: reshape to `(Ncomponents, Ncompartments+1)`; column 0 is
the liquor vector, the remaining columns are the wood matrix. -/
def unflatx (Nk : ℕ) (x : Flat Nk) :
    (Fin 4 → ℝ) × (Fin 4 → Fin Nk → ℝ) :=
  (fun i => xget x (i.val * (Nk + 1)),
   fun i j => xget x (i.val * (Nk + 1) + (j.val + 1)))

noncomputable section

/-- Temperature schedule `temp(t)`: linear ramp from `Ti` to `Tmax` over
`toTmax*60` seconds, then held at `Tmax`.  The source also appends the
value to the diagnostic list `temp_store`; no claim concerns that history,
so the append is not modelled. -/
def temp (p : Params) (t : ℝ) : ℝ :=
  if t < p.toTmax * 60 then
    p.Ti + ((p.Tmax - p.Ti) / (p.toTmax * 60)) * t
  else
    p.Tmax

/-- Row-major index arithmetic used throughout: dividing and reducing a
row-major index by the row length recovers the row and column. -/
theorem pair_div_mod (n a b : ℕ) (hb : b < n) :
    (a * n + b) / n = a ∧ (a * n + b) % n = b := by
  have hn : 0 < n := by omega
  constructor
  · rw [Nat.mul_comm a n, Nat.mul_add_div hn, Nat.div_eq_of_lt hb,
      Nat.add_zero]
  · rw [Nat.mul_add_mod', Nat.mod_eq_of_lt hb]

/-- Row-major index bound: `a*n + b < m*n` when `a < m` and `b < n`. -/
theorem pair_lt (m n a b : ℕ) (ha : a < m) (hb : b < n) :
    a * n + b < m * n := by
  have h1 : (a + 1) * n ≤ m * n := Nat.mul_le_mul_right n ha
  have h2 : (a + 1) * n = a * n + n := by ring
  omega

/-- Flat index `i*(Nk+1)` of the encoded state holds the liquor entry. -/
theorem flatx_liq (Nk : ℕ) (liquor : Fin 4 → ℝ) (wood : Fin 4 → Fin Nk → ℝ)
    (i : Fin 4) :
    xget (flatx Nk liquor wood) (i.val * (Nk + 1)) = liquor i := by
  have hpos : 0 < Nk + 1 := Nat.succ_pos Nk
  have hlt : i.val * (Nk + 1) < 4 * (Nk + 1) := by
    have h := pair_lt 4 (Nk + 1) i.val 0 i.isLt hpos
    omega
  rw [xget, dif_pos hlt]
  have h0 : i.val * (Nk + 1) % (Nk + 1) = 0 := Nat.mul_mod_left _ _
  rw [flatx]
  simp only
  rw [dif_pos h0]
  refine congrArg liquor (Fin.ext ?_)
  show i.val * (Nk + 1) / (Nk + 1) = i.val
  rw [Nat.mul_comm i.val (Nk + 1)]
  exact Nat.mul_div_cancel_left _ hpos

/-- Flat index `i*(Nk+1) + j + 1` of the encoded state holds the wood
entry of component `i`, compartment `j`. -/
theorem flatx_wood (Nk : ℕ) (liquor : Fin 4 → ℝ) (wood : Fin 4 → Fin Nk → ℝ)
    (i : Fin 4) (j : Fin Nk) :
    xget (flatx Nk liquor wood) (i.val * (Nk + 1) + (j.val + 1)) = wood i j := by
  have hj : j.val + 1 < Nk + 1 := Nat.succ_lt_succ j.isLt
  have hdm := pair_div_mod (Nk + 1) i.val (j.val + 1) hj
  have hlt : i.val * (Nk + 1) + (j.val + 1) < 4 * (Nk + 1) :=
    pair_lt 4 (Nk + 1) i.val (j.val + 1) i.isLt hj
  rw [xget, dif_pos hlt]
  have hne : ¬((i.val * (Nk + 1) + (j.val + 1)) % (Nk + 1) = 0) := by
    rw [hdm.2]; omega
  rw [flatx]
  simp only
  rw [dif_neg hne]
  refine congr (congrArg wood (Fin.ext hdm.1)) (Fin.ext ?_)
  show (i.val * (Nk + 1) + (j.val + 1)) % (Nk + 1) - 1 = j.val
  rw [hdm.2]
  omega

/-- C3: decoding an encoded state returns exactly the original pair, with
the flat vector laid out liquor column first and wood columns in spatial
order; `unflatx (flatx liquor wood) = (liquor, wood)`. -/
theorem unflatx_flatx (Nk : ℕ) (liquor : Fin 4 → ℝ)
    (wood : Fin 4 → Fin Nk → ℝ) :
    unflatx Nk (flatx Nk liquor wood) = (liquor, wood) := by
  refine Prod.ext ?_ ?_
  · funext i
    exact flatx_liq Nk liquor wood i
  · funext i j
    exact flatx_wood Nk liquor wood i j

/-- C8: the temperature schedule is a linear ramp from `Ti` to `Tmax` over
`toTmax*60` seconds and then constant, is continuous at the boundary with
`temp (toTmax*60) = Tmax`, and is monotone non-decreasing when
`Ti ≤ Tmax` and the ramp duration is positive. -/
theorem temp_ramp_hold (p : Params) (hTi : p.Ti ≤ p.Tmax)
    (hdur : 0 < p.toTmax) :
    (∀ t, t < p.toTmax * 60 →
        temp p t = p.Ti + ((p.Tmax - p.Ti) / (p.toTmax * 60)) * t) ∧
    (∀ t, p.toTmax * 60 ≤ t → temp p t = p.Tmax) ∧
    temp p (p.toTmax * 60) = p.Tmax ∧
    Monotone (temp p) := by
  have hR : (0 : ℝ) < p.toTmax * 60 := by positivity
  have hs : 0 ≤ (p.Tmax - p.Ti) / (p.toTmax * 60) :=
    div_nonneg (by linarith) (le_of_lt hR)
  refine ⟨fun t ht => if_pos ht, fun t ht => if_neg (not_lt.2 ht),
    if_neg (lt_irrefl _), ?_⟩
  intro t1 t2 hle
  simp only [temp]
  split_ifs with h1 h2 h2
  · have := mul_le_mul_of_nonneg_left hle hs
    linarith
  · have hmul : (p.Tmax - p.Ti) / (p.toTmax * 60) * t1 ≤
        (p.Tmax - p.Ti) / (p.toTmax * 60) * (p.toTmax * 60) :=
      mul_le_mul_of_nonneg_left (le_of_lt h1) hs
    have hcancel : (p.Tmax - p.Ti) / (p.toTmax * 60) * (p.toTmax * 60) =
        p.Tmax - p.Ti := div_mul_cancel₀ _ (ne_of_gt hR)
    linarith
  · linarith
  · linarith

/-- Kappa number diagnostic from the source:
`knum = 500*((L*100)/(L*100 + C*100)) + 5`. -/
def kappa (L C : ℝ) : ℝ := 500 * ((L * 100) / (L * 100 + C * 100)) + 5

/-- Wood mass fractions computed inside `reaction_rates` from the whole
flat state: `Nw.sum(axis=1)*componentsMM/parameters['wood_mass']`. -/
def mass_frac (p : Params) (Nk : ℕ) (x : Flat Nk) : Fin 4 → ℝ :=
  fun i => (∑ j : Fin Nk, (unflatx Nk x).2 i j) * componentsMM i / p.wood_mass

/-- The three kinetic regimes of the if/elif/else chain in
`reaction_rates`. -/
inductive Regime where
  | bulk : Regime
  | transition : Regime
  | residual : Regime
deriving DecidableEq

/-- Regime selector: the ordered threshold comparison of the lignin mass
fraction in `reaction_rates` (`>= phase_limit_1` bulk, else
`>= phase_limit_2` transition, else residual). -/
def regime (p : Params) (mf0 : ℝ) : Regime :=
  if mf0 ≥ p.phase_limit_1 then Regime.bulk
  else if mf0 ≥ p.phase_limit_2 then Regime.transition
  else Regime.residual

/-- Fractional power as evaluated by numpy at the call sites of
`reaction_rates` (exponents 0.5, 0.11, 0.5, 0.4, 0.7, all fractional): a
negative base yields an invalid value (NaN), modelled as `none`; otherwise
the real power. -/
def npow (x e : ℝ) : Option ℝ := if x < 0 then none else some (x ^ e)

/-- Kinetics engine `reaction_rates(C, x, T)`.  `C` is one wood column of
concentrations, `x` the whole flat state (used only through the
regime-selecting mass fractions), `T` the temperature and `store` the
ambient `kappa_store` list, which the call extends by one kappa value.
The rates are `none` when numpy would have produced an invalid value
(negative base under a fractional power); no clamping is performed by the
source. -/
def reaction_rates (p : Params) (Nk : ℕ) (C : Fin 4 → ℝ) (x : Flat Nk)
    (T : ℝ) (store : List ℝ) : List ℝ × Option (Fin 3 → ℝ) :=
  let CL := C 0
  let CA := C 2
  let CS := C 3
  let mf := mass_frac p Nk x
  let store2 := store ++ [kappa (mf 0) (mf 1)]
  let rates : Option (Fin 3 → ℝ) :=
    match regime p (mf 0) with
    | Regime.bulk =>
      match npow T 0.5, npow CA 0.11 with
      | some rT, some pA =>
        let kr1 := p.g * (36.2 * rT) * Real.exp (-4807.69 / T) + p.y * 0.01
        let kr2 := p.g * 2.53 + p.y * 0.02
        let kr3 := (-4.78e-3 : ℝ)
        let kr4 := (1.81e-2 : ℝ)
        let r1 := kr1 * CL
        let r2 := kr1 * kr2 * CL * pA
        let r3 := (kr3 * r1 + kr4 * r2) * p.density / p.porinf
        some ![r1, r2, r3]
      | _, _ => none
    | Regime.transition =>
      match npow CA 0.5, npow CS 0.4 with
      | some pA, some pS =>
        let kr11 := p.g * Real.exp (35.19 - 17200 / T) + p.y * 0.01
        let kr12 := p.g * Real.exp (29.23 - 14400 / T) + p.y * 0.01
        let kr2 := p.g * 0.47 + p.y * 0.02
        let kr3 := (-4.78e-3 : ℝ)
        let kr4 := (1.81e-2 : ℝ)
        let r1 := kr11 * CA * CL + kr12 * CL * pA * pS
        let r2 := kr2 * r1
        let r3 := (kr3 * r1 + kr4 * r2) * p.density / p.porinf
        some ![r1, r2, r3]
      | _, _ => none
    | Regime.residual =>
      match npow CA 0.7 with
      | some pA =>
        let kr1 := p.g * Real.exp (19.64 - 10804 / T) + p.y * 0.01
        let kr2 := p.g * 2.19 + p.y * 0.02
        let kr3 := (-4.78e-3 : ℝ)
        let kr4 := (1.81e-2 : ℝ)
        let r1 := kr1 * pA * CL
        let r2 := kr2 * r1
        let r3 := (kr3 * r1 + kr4 * r2) * p.density / p.porinf
        some ![r1, r2, r3]
      | none => none
  (store2, rates)

/-- Model selection performed at module load.  The source reads two 0/1
indicators and sets `(y, g)`; the else branch only prints
"No model was specified" and continues with `y`, `g` unbound, modelled as
`none`. -/
def modelSelect (andersson gustafsson : ℝ) : Option (ℝ × ℝ) :=
  if andersson = 1 then some (1, 0)
  else if gustafsson = 1 then some (0, 1)
  else none

/-- Width of one wood compartment, `dz = 1./Ncompartments`. -/
def dz (Nk : ℕ) : ℝ := 1 / (Nk : ℝ)

/-- `wood_compartment_volume = wood_volume/Ncompartments`. -/
def wood_compartment_volume (p : Params) (Nk : ℕ) : ℝ :=
  p.wood_volume / (Nk : ℝ)

/-- Fick diffusivity vector `fick_constant(T, cw)`: zeros except entry
`Ncomponents-2` (alkali), set to 0.02. -/
def fick_constant (Nk : ℕ) (T : ℝ) (cw : Fin 4 → Fin Nk → ℝ) : Fin 4 → ℝ :=
  fun i => if i.val = 2 then 0.02 else 0

/-- External mass-transfer coefficient vector
`mass_transfer_constant(T)`: zeros except the alkali entry, set to 0.1. -/
def mass_transfer_constant (T : ℝ) : Fin 4 → ℝ :=
  fun i => if i.val = 2 then 0.1 else 0

/-- Safe wood-matrix access with a natural-number column index
(out-of-range reads, which the source never performs, return 0). -/
def wget {Nk : ℕ} (cw : Fin 4 → Fin Nk → ℝ) (i : Fin 4) (n : ℕ) : ℝ :=
  if h : n < Nk then cw i ⟨n, h⟩ else 0

/-- Axis-1 spatial gradient, the second array of `numpy.gradient(cw, dz)`:
one-sided differences at the two edges, centred differences inside.
numpy raises for fewer than two columns; the values here for `Nk < 2` are
irrelevant to every claim (they cancel out of all sums). -/
def gradZ (Nk : ℕ) (h : ℝ) (cw : Fin 4 → Fin Nk → ℝ) :
    Fin 4 → Fin Nk → ℝ := fun i j =>
  if j.val = 0 then (wget cw i 1 - wget cw i 0) / h
  else if j.val = Nk - 1 then (wget cw i (Nk - 1) - wget cw i (Nk - 2)) / h
  else (wget cw i (j.val + 1) - wget cw i (j.val - 1)) / (2 * h)

/-- Intra-wood diffusive flux `diffusion = -A*D*gradcwz` before the
boundary mask. -/
def diffusionRaw (p : Params) (Nk : ℕ) (T : ℝ)
    (cw : Fin 4 → Fin Nk → ℝ) : Fin 4 → Fin Nk → ℝ := fun i j =>
  -p.A * fick_constant Nk T cw i * gradZ Nk (dz Nk) cw i j

/-- Diffusive flux after the boundary mask `diffusion[:, -1] = 0`: the
last (innermost) compartment sees no outgoing flux (symmetry plane). -/
def diffusion (p : Params) (Nk : ℕ) (T : ℝ)
    (cw : Fin 4 → Fin Nk → ℝ) : Fin 4 → Fin Nk → ℝ := fun i j =>
  if j.val = Nk - 1 then 0 else diffusionRaw p Nk T cw i j

/-- Row-major flattened read of a `(4, Nk)` matrix, matching
`numpy.ndarray.flatten`; out-of-range reads return 0. -/
def mFlat {Nk : ℕ} (M : Fin 4 → Fin Nk → ℝ) (n : ℕ) : ℝ :=
  if h : n / Nk < 4 ∧ n % Nk < Nk then M ⟨n / Nk, h.1⟩ ⟨n % Nk, h.2⟩ else 0

/-- `numpy.roll(M, 1)` with no axis argument on a `(4, Nk)` array:
flatten row-major, rotate right by one, reshape.  Entry `(i, j)` of the
result is the flattened entry at index `i*Nk + j - 1`, cyclically. -/
def roll1 {Nk : ℕ} (M : Fin 4 → Fin Nk → ℝ) : Fin 4 → Fin Nk → ℝ :=
  fun i j => mFlat M ((i.val * Nk + j.val + (4 * Nk - 1)) % (4 * Nk))

/-- Stoichiometric matrix as written in the source (3×4, reagents
negative, products positive), before the transpose. -/
def Sraw : Fin 3 → Fin 4 → ℝ :=
  ![![-1, 0, 0, 0], ![0, -1, 0, 0], ![0, 0, -1, 0]]

/-- Stoichiometric matrix `S` (the transpose of the 3×4 literal, shape
4×3): reaction 1 consumes Lignin, reaction 2 Carbohydrate, reaction 3
Alkali; the Sulfur row is zero. -/
def S : Fin 4 → Fin 3 → ℝ := fun i k => Sraw k i

/-- Liquor-to-wood transfer `transfer_rate = K*A*(cl - cw[:,0])`. -/
def transfer_rate (p : Params) (Nk : ℕ) (T : ℝ) (cl : Fin 4 → ℝ)
    (cw : Fin 4 → Fin Nk → ℝ) : Fin 4 → ℝ :=
  fun i => mass_transfer_constant T i * p.A * (cl i - wget cw i 0)

/-- Column `j` of `numpy.apply_along_axis(reaction_rates, 0, cw, x, T)`
inside `dxdt`.  The ambient `kappa_store` threading does not affect the
rate values (the rates component of `reaction_rates` ignores the store),
so the store argument is passed empty here. -/
def ratesCol (p : Params) (Nk : ℕ) (x : Flat Nk) (t : ℝ) (j : Fin Nk) :
    Option (Fin 3 → ℝ) :=
  (reaction_rates p Nk (fun i => (unflatx Nk x).2 i j) x (temp p t) []).2

/-- Rate matrix with invalid (NaN) columns defaulted to zero; it agrees
with the true rates whenever every column is valid. -/
def ratesValD (p : Params) (Nk : ℕ) (x : Flat Nk) (t : ℝ) :
    Fin 3 → Fin Nk → ℝ :=
  fun k j => (ratesCol p Nk x t j).getD (fun _ => 0) k

/-- Reaction contribution `reaction = S.dot(r)*wood_compartment_volume`. -/
def reactionTerm (p : Params) (Nk : ℕ) (rm : Fin 3 → Fin Nk → ℝ) :
    Fin 4 → Fin Nk → ℝ :=
  fun i j => (∑ k : Fin 3, S i k * rm k j) * wood_compartment_volume p Nk

/-- Value assembled by `dxdt`: liquor loses the transfer; wood gains
`reaction - diffusion + numpy.roll(diffusion, 1)` plus the transfer into
compartment 0. -/
def dxdtVal (p : Params) (Nk : ℕ) (x : Flat Nk) (t : ℝ) : Flat Nk :=
  let cl := (unflatx Nk x).1
  let cw := (unflatx Nk x).2
  let T := temp p t
  let tr := transfer_rate p Nk T cl cw
  let diff := diffusion p Nk T cw
  let reaction := reactionTerm p Nk (ratesValD p Nk x t)
  let dNliquordt : Fin 4 → ℝ := fun i => -tr i
  let dNwooddt : Fin 4 → Fin Nk → ℝ := fun i j =>
    reaction i j - diff i j + roll1 diff i j + (if j.val = 0 then tr i else 0)
  flatx Nk dNliquordt dNwooddt

/-- Derivative function `dxdt(x, t)`: `none` when numpy would have
produced an invalid value (NaN) in some kinetics column, otherwise the
assembled flat derivative. -/
def dxdt (p : Params) (Nk : ℕ) (x : Flat Nk) (t : ℝ) : Option (Flat Nk) :=
  if ∀ j : Fin Nk, (ratesCol p Nk x t j).isSome then
    some (dxdtVal p Nk x t)
  else none

/-- Total moles `totalmass(x) = sum(x)`. -/
def totalmass {Nk : ℕ} (x : Flat Nk) : ℝ := ∑ f : Fin (4 * (Nk + 1)), x f

/-- Concrete parameter set used by the witnesses. -/
def pW : Params where
  A := 1
  liquor_volume := 1
  wood_volume := 1
  wood_mass := 1
  density := 1
  porinf := 1
  phase_limit_1 := 0.5
  phase_limit_2 := 0.2
  Ti := 300
  Tmax := 400
  toTmax := 2
  y := 1
  g := 0

/-- Witness for C8 at the concrete parameter set `pW`. -/
theorem temp_ramp_hold_witness :
    (pW.Ti ≤ pW.Tmax ∧ 0 < pW.toTmax) ∧ temp pW (pW.toTmax * 60) = pW.Tmax :=
  ⟨⟨by norm_num [pW], by norm_num [pW]⟩,
    (temp_ramp_hold pW (by norm_num [pW]) (by norm_num [pW])).2.2.1⟩

/-- All-zero state with one wood compartment (residual regime). -/
def xZero1 : Flat 1 := fun _ => 0

/-- One-compartment state whose wood lignin entry (flat index 1) is 0.6,
so the whole-wood lignin mass fraction under `pW` is 0.6 (bulk regime). -/
def xLig1 : Flat 1 := fun f => if f.val = 1 then 0.6 else 0

/-- Wood column with a negative alkali concentration. -/
def colNeg : Fin 4 → ℝ := ![1, 0, -1, 0]

/-- The same wood column with the alkali concentration clamped to zero. -/
def colZero : Fin 4 → ℝ := ![1, 0, 0, 0]

/-- Two-compartment state with wood lignin split 0.3/0.3. -/
def xA2 : Flat 2 := fun f =>
  if f.val = 1 then 0.3 else if f.val = 2 then 0.3 else 0

/-- Two-compartment state with wood lignin split 0.6/0.0: same column sums
as `xA2`, different wood columns. -/
def xB2 : Flat 2 := fun f => if f.val = 1 then 0.6 else 0

/-- C4: regime selection boundary behaviour: a lignin mass fraction exactly
at `phase_limit_1` selects bulk; strictly below `phase_limit_1` but at
least `phase_limit_2` selects transition (so exactly `phase_limit_2`
selects transition); strictly below `phase_limit_2` selects residual. -/
theorem regime_boundaries (p : Params)
    (h12 : p.phase_limit_2 < p.phase_limit_1) :
    regime p p.phase_limit_1 = Regime.bulk ∧
    (∀ mf0, mf0 < p.phase_limit_1 → p.phase_limit_2 ≤ mf0 →
      regime p mf0 = Regime.transition) ∧
    regime p p.phase_limit_2 = Regime.transition ∧
    (∀ mf0, mf0 < p.phase_limit_2 → regime p mf0 = Regime.residual) := by
  refine ⟨?_, ?_, ?_, ?_⟩
  · rw [regime, if_pos (le_refl p.phase_limit_1)]
  · intro mf0 h1 h2
    rw [regime, if_neg (not_le.2 h1), if_pos h2]
  · rw [regime, if_neg (not_le.2 h12), if_pos (le_refl p.phase_limit_2)]
  · intro mf0 h2
    rw [regime, if_neg (not_le.2 (lt_trans h2 h12)), if_neg (not_le.2 h2)]

/-- Witness for C4 at the concrete parameter set `pW`
(`phase_limit_1 = 0.5`, `phase_limit_2 = 0.2`). -/
theorem regime_boundaries_witness :
    pW.phase_limit_2 < pW.phase_limit_1 ∧
    regime pW pW.phase_limit_1 = Regime.bulk ∧
    regime pW 0.3 = Regime.transition ∧
    regime pW pW.phase_limit_2 = Regime.transition ∧
    regime pW 0.1 = Regime.residual := by
  have h12 : pW.phase_limit_2 < pW.phase_limit_1 := by norm_num [pW]
  refine ⟨h12, (regime_boundaries pW h12).1, ?_, (regime_boundaries pW h12).2.2.1, ?_⟩
  · exact (regime_boundaries pW h12).2.1 0.3 (by norm_num [pW]) (by norm_num [pW])
  · exact (regime_boundaries pW h12).2.2.2 0.1 (by norm_num [pW])

/-- C9: each invocation of the kinetics engine appends exactly one kappa
value to the history, and whenever `L + C` is nonzero that value equals
`500*(L/(L+C)) + 5` in the lignin and carbohydrate mass fractions: the
factor 100 applied to both inside `kappa` cancels. -/
theorem reaction_rates_kappa_append (p : Params) (Nk : ℕ) (C : Fin 4 → ℝ)
    (x : Flat Nk) (T : ℝ) (store : List ℝ)
    (h : mass_frac p Nk x 0 + mass_frac p Nk x 1 ≠ 0) :
    (reaction_rates p Nk C x T store).1 =
      store ++ [500 * (mass_frac p Nk x 0 /
        (mass_frac p Nk x 0 + mass_frac p Nk x 1)) + 5] := by
  have hk : kappa (mass_frac p Nk x 0) (mass_frac p Nk x 1) =
      500 * (mass_frac p Nk x 0 /
        (mass_frac p Nk x 0 + mass_frac p Nk x 1)) + 5 := by
    rw [kappa]
    have hquot : mass_frac p Nk x 0 * 100 /
        (mass_frac p Nk x 0 * 100 + mass_frac p Nk x 1 * 100) =
        mass_frac p Nk x 0 / (mass_frac p Nk x 0 + mass_frac p Nk x 1) := by
      rw [show mass_frac p Nk x 0 * 100 + mass_frac p Nk x 1 * 100 =
        (mass_frac p Nk x 0 + mass_frac p Nk x 1) * 100 from by ring]
      rw [mul_div_mul_right _ _ (by norm_num : (100 : ℝ) ≠ 0)]
    rw [hquot]
  show store ++ [kappa (mass_frac p Nk x 0) (mass_frac p Nk x 1)] = _
  rw [hk]

/-- Witness for C9: one invocation at `pW` on the one-compartment state
`xLig1` appends exactly the kappa value `500*(0.6/(0.6+0)) + 5`. -/
theorem reaction_rates_kappa_append_witness :
    mass_frac pW 1 xLig1 0 + mass_frac pW 1 xLig1 1 ≠ 0 ∧
    (reaction_rates pW 1 colZero xLig1 1 []).1 =
      [] ++ [500 * (mass_frac pW 1 xLig1 0 /
        (mass_frac pW 1 xLig1 0 + mass_frac pW 1 xLig1 1)) + 5] := by
  have h : mass_frac pW 1 xLig1 0 + mass_frac pW 1 xLig1 1 ≠ 0 := by
    norm_num [mass_frac, unflatx, xget, xLig1, componentsMM, pW,
      Fin.sum_univ_one]
  exact ⟨h, reaction_rates_kappa_append pW 1 colZero xLig1 1 [] h⟩

/-- C2 (code bug): the kinetics engine performs no clamping.  At the
residual-regime state `xZero1` with `pW` (Andersson selection), a wood
column with alkali concentration −1 makes `reaction_rates` evaluate
`(-1)**0.7`, an invalid value (NaN, modelled `none`), while the clamped
column returns a valid rate vector; the two outputs differ. -/
theorem reaction_rates_no_clamp :
    (reaction_rates pW 1 colNeg xZero1 1 []).2 = none ∧
    (reaction_rates pW 1 colZero xZero1 1 []).2 ≠ none := by
  have hmf : ∀ i, mass_frac pW 1 xZero1 i = 0 := by
    intro i
    simp [mass_frac, unflatx, xget, xZero1, componentsMM, pW]
  have hreg : regime pW (mass_frac pW 1 xZero1 0) = Regime.residual := by
    rw [hmf 0, regime, if_neg (by norm_num [pW]), if_neg (by norm_num [pW])]
  constructor
  · show (reaction_rates pW 1 colNeg xZero1 1 []).2 = none
    simp only [reaction_rates, hreg]
    have : npow (colNeg 2) 0.7 = none := by
      rw [npow, if_pos]
      norm_num [colNeg]
    simp [this]
  · show (reaction_rates pW 1 colZero xZero1 1 []).2 ≠ none
    simp only [reaction_rates, hreg]
    have : npow (colZero 2) 0.7 = some ((0 : ℝ) ^ (0.7 : ℝ)) := by
      rw [npow, if_neg]
      · norm_num [colZero]
      · norm_num [colZero]
    simp [this]

/-- C5 (code bug): the model-selection code does not fail fast.  With both
indicators set it silently selects the Andersson coefficients `(y,g) =
(1,0)`; with neither set it reaches the print-and-continue branch
(`none`), deferring the failure to the first use of `y` inside
integration. -/
theorem modelSelect_no_fail_fast :
    modelSelect 1 1 = some (1, 0) ∧ modelSelect 0 0 = none := by
  constructor
  · rw [modelSelect, if_pos rfl]
  · rw [modelSelect, if_neg (by norm_num), if_neg (by norm_num)]

/-- Reading the flattened matrix at the row-major index of `(i, j)`
returns the entry `(i, j)`. -/
theorem mFlat_pair {Nk : ℕ} (M : Fin 4 → Fin Nk → ℝ) (i : Fin 4)
    (j : Fin Nk) : mFlat M (i.val * Nk + j.val) = M i j := by
  have hdm := pair_div_mod Nk i.val j.val j.isLt
  have hc : (i.val * Nk + j.val) / Nk < 4 ∧ (i.val * Nk + j.val) % Nk < Nk := by
    constructor
    · rw [hdm.1]; exact i.isLt
    · rw [hdm.2]; exact j.isLt
  rw [mFlat, dif_pos hc]
  exact congr (congrArg M (Fin.ext hdm.1)) (Fin.ext hdm.2)

/-- The rolled matrix at `(i, j)` with `j ≥ 1` is the original entry
`(i, j-1)`: the cyclic shift stays inside the row. -/
theorem roll1_of_succ {Nk : ℕ} (M : Fin 4 → Fin Nk → ℝ) (i : Fin 4)
    (j k : Fin Nk) (hjk : k.val + 1 = j.val) : roll1 M i j = M i k := by
  have hNk : 0 < Nk := j.pos
  have h3 : i.val * Nk ≤ 3 * Nk := Nat.mul_le_mul_right Nk (by omega)
  have harg : i.val * Nk + j.val + (4 * Nk - 1) =
      4 * Nk + (i.val * Nk + k.val) := by
    have hj := j.isLt
    omega
  rw [roll1, harg, Nat.add_mod_left,
    Nat.mod_eq_of_lt (by have := k.isLt; omega : i.val * Nk + k.val < 4 * Nk)]
  exact mFlat_pair M i k

/-- The rolled matrix at column 0 reads a last-column entry of the
original (the flattened wrap-around); if the last column is zero, the
wrap-around term is zero. -/
theorem roll1_wrap_zero {Nk : ℕ} (M : Fin 4 → Fin Nk → ℝ)
    (hM : ∀ (i : Fin 4) (j : Fin Nk), j.val = Nk - 1 → M i j = 0)
    (i : Fin 4) (j : Fin Nk) (hj : j.val = 0) : roll1 M i j = 0 := by
  have hNk : 0 < Nk := j.pos
  rw [roll1, hj]
  by_cases hi : i.val = 0
  · rw [hi]
    have harg : 0 * Nk + 0 + (4 * Nk - 1) = 3 * Nk + (Nk - 1) := by omega
    rw [harg,
      Nat.mod_eq_of_lt (by omega : 3 * Nk + (Nk - 1) < 4 * Nk)]
    exact (mFlat_pair M ⟨3, by omega⟩ ⟨Nk - 1, by omega⟩).trans (hM _ _ rfl)
  · have hexp : i.val * Nk = (i.val - 1) * Nk + Nk := by
      have h2 : i.val = (i.val - 1) + 1 := by omega
      calc i.val * Nk = ((i.val - 1) + 1) * Nk := by rw [← h2]
        _ = (i.val - 1) * Nk + Nk := by ring
    have hB : (i.val - 1) * Nk ≤ 2 * Nk :=
      Nat.mul_le_mul_right Nk (by have := i.isLt; omega)
    have harg : i.val * Nk + 0 + (4 * Nk - 1) =
        4 * Nk + ((i.val - 1) * Nk + (Nk - 1)) := by omega
    rw [harg, Nat.add_mod_left,
      Nat.mod_eq_of_lt (by omega : (i.val - 1) * Nk + (Nk - 1) < 4 * Nk)]
    exact (mFlat_pair M ⟨i.val - 1, by omega⟩ ⟨Nk - 1, by omega⟩).trans
      (hM _ _ rfl)

/-- C6: the diffusive flux leaving the last (innermost) wood compartment
is exactly zero; the rolled flux received by compartment `j ≥ 1` is
exactly the same component's flux out of compartment `j-1`; and the
wrap-around term received by compartment 0 is exactly zero (no spurious
mass from the cyclic shift). -/
theorem diffusion_boundary (p : Params) (Nk : ℕ) (T : ℝ)
    (cw : Fin 4 → Fin Nk → ℝ) :
    (∀ (i : Fin 4) (j : Fin Nk), j.val = Nk - 1 →
      diffusion p Nk T cw i j = 0) ∧
    (∀ (i : Fin 4) (j k : Fin Nk), k.val + 1 = j.val →
      roll1 (diffusion p Nk T cw) i j = diffusion p Nk T cw i k) ∧
    (∀ (i : Fin 4) (j : Fin Nk), j.val = 0 →
      roll1 (diffusion p Nk T cw) i j = 0) := by
  refine ⟨?_, ?_, ?_⟩
  · intro i j hj
    simp only [diffusion]
    rw [if_pos hj]
  · intro i j k hjk
    exact roll1_of_succ _ i j k hjk
  · intro i j hj
    refine roll1_wrap_zero _ ?_ i j hj
    intro i2 j2 hj2
    simp only [diffusion]
    rw [if_pos hj2]

/-- Witness for C6 with 3 wood compartments and a nonzero concentration
field. -/
theorem diffusion_boundary_witness :
    diffusion pW 3 1 (fun _ _ => 1) 0 (2 : Fin 3) = 0 ∧
    roll1 (diffusion pW 3 1 (fun _ _ => 1)) 1 (2 : Fin 3) =
      diffusion pW 3 1 (fun _ _ => 1) 1 (1 : Fin 3) ∧
    roll1 (diffusion pW 3 1 (fun _ _ => 1)) 2 (0 : Fin 3) = 0 :=
  ⟨(diffusion_boundary pW 3 1 (fun _ _ => 1)).1 0 (2 : Fin 3) rfl,
   (diffusion_boundary pW 3 1 (fun _ _ => 1)).2.1 1 (2 : Fin 3) (1 : Fin 3) rfl,
   (diffusion_boundary pW 3 1 (fun _ _ => 1)).2.2 2 (0 : Fin 3) rfl⟩

/-- Summing a function of the row-major flat index over all matrix
positions equals summing it over the flat index range. -/
theorem sum_pair (Nk : ℕ) (hNk : 0 < Nk) (F : ℕ → ℝ) :
    (∑ i : Fin 4, ∑ j : Fin Nk, F (i.val * Nk + j.val)) =
      ∑ n : Fin (4 * Nk), F n.val := by
  have hstep : (∑ i : Fin 4, ∑ j : Fin Nk, F (i.val * Nk + j.val)) =
      ∑ q : Fin 4 × Fin Nk, F (q.1.val * Nk + q.2.val) :=
    (Fintype.sum_prod_type
      (fun q : Fin 4 × Fin Nk => F (q.1.val * Nk + q.2.val))).symm
  rw [hstep]
  refine Fintype.sum_bijective (fun q : Fin 4 × Fin Nk =>
    (⟨q.1.val * Nk + q.2.val,
      pair_lt 4 Nk q.1.val q.2.val q.1.isLt q.2.isLt⟩ : Fin (4 * Nk)))
    ⟨?_, ?_⟩ _ _ (fun q => rfl)
  · intro a b hab
    have h : a.1.val * Nk + a.2.val = b.1.val * Nk + b.2.val :=
      congrArg Fin.val hab
    have hda := pair_div_mod Nk a.1.val a.2.val a.2.isLt
    have hdb := pair_div_mod Nk b.1.val b.2.val b.2.isLt
    refine Prod.ext (Fin.ext ?_) (Fin.ext ?_)
    · rw [← hda.1, ← hdb.1, h]
    · rw [← hda.2, ← hdb.2, h]
  · intro n
    refine ⟨(⟨n.val / Nk, (Nat.div_lt_iff_lt_mul hNk).2 ?_⟩,
      ⟨n.val % Nk, Nat.mod_lt _ hNk⟩), Fin.ext ?_⟩
    · have := n.isLt
      omega
    · show n.val / Nk * Nk + n.val % Nk = n.val
      rw [Nat.mul_comm]
      exact Nat.div_add_mod n.val Nk

/-- Rolling is a permutation of the flattened entries, so it preserves the
total. -/
theorem sum_roll1 {Nk : ℕ} (hNk : 0 < Nk) (M : Fin 4 → Fin Nk → ℝ) :
    (∑ i : Fin 4, ∑ j : Fin Nk, roll1 M i j) =
      ∑ i : Fin 4, ∑ j : Fin Nk, M i j := by
  haveI : NeZero (4 * Nk) := ⟨by omega⟩
  calc (∑ i : Fin 4, ∑ j : Fin Nk, roll1 M i j)
      = ∑ n : Fin (4 * Nk), mFlat M ((n.val + (4 * Nk - 1)) % (4 * Nk)) :=
        sum_pair Nk hNk (fun m => mFlat M ((m + (4 * Nk - 1)) % (4 * Nk)))
    _ = ∑ n : Fin (4 * Nk), mFlat M n.val := by
        refine Fintype.sum_equiv
          (Equiv.addRight (⟨4 * Nk - 1, by omega⟩ : Fin (4 * Nk))) _ _ ?_
        intro n
        rfl
    _ = ∑ i : Fin 4, ∑ j : Fin Nk, mFlat M (i.val * Nk + j.val) :=
        (sum_pair Nk hNk (fun m => mFlat M m)).symm
    _ = ∑ i : Fin 4, ∑ j : Fin Nk, M i j := by
        refine Finset.sum_congr rfl (fun i _ => ?_)
        exact Finset.sum_congr rfl (fun j _ => mFlat_pair M i j)

/-- Total of the encoded state: liquor total plus wood total. -/
theorem totalmass_flatx (Nk : ℕ) (l : Fin 4 → ℝ) (w : Fin 4 → Fin Nk → ℝ) :
    totalmass (flatx Nk l w) =
      (∑ i : Fin 4, l i) + ∑ i : Fin 4, ∑ j : Fin Nk, w i j := by
  rw [totalmass]
  calc (∑ f : Fin (4 * (Nk + 1)), flatx Nk l w f)
      = ∑ f : Fin (4 * (Nk + 1)), xget (flatx Nk l w) f.val := by
        refine Finset.sum_congr rfl (fun f _ => ?_)
        rw [xget, dif_pos f.isLt]
    _ = ∑ i : Fin 4, ∑ c : Fin (Nk + 1),
          xget (flatx Nk l w) (i.val * (Nk + 1) + c.val) :=
        (sum_pair (Nk + 1) (Nat.succ_pos Nk) _).symm
    _ = ∑ i : Fin 4, (l i + ∑ j : Fin Nk, w i j) := by
        refine Finset.sum_congr rfl (fun i _ => ?_)
        rw [Fin.sum_univ_succ]
        congr 1
        · rw [show i.val * (Nk + 1) + (0 : Fin (Nk + 1)).val =
            i.val * (Nk + 1) by simp]
          exact flatx_liq Nk l w i
        · refine Finset.sum_congr rfl (fun j _ => ?_)
          rw [show i.val * (Nk + 1) + (Fin.succ j).val =
            i.val * (Nk + 1) + (j.val + 1) by rw [Fin.val_succ]]
          exact flatx_wood Nk l w i j
    _ = (∑ i : Fin 4, l i) + ∑ i : Fin 4, ∑ j : Fin Nk, w i j :=
        Finset.sum_add_distrib

/-- First-column indicator sums to the single value. -/
theorem sum_ite_first (Nk : ℕ) (hNk : 0 < Nk) (a : ℝ) :
    (∑ j : Fin Nk, (if j.val = 0 then a else 0)) = a := by
  obtain ⟨m, rfl⟩ : ∃ m, Nk = m + 1 := ⟨Nk - 1, by omega⟩
  rw [Fin.sum_univ_succ]
  simp [Fin.val_succ]

/-- The wood block of the derivative sums to the reaction total plus the
incoming transfer: diffusion cancels against its rolled copy. -/
theorem sum_wood_terms {Nk : ℕ} (hNk : 0 < Nk) (R D : Fin 4 → Fin Nk → ℝ)
    (tr : Fin 4 → ℝ) :
    (∑ i : Fin 4, ∑ j : Fin Nk,
        (R i j - D i j + roll1 D i j + (if j.val = 0 then tr i else 0))) =
      (∑ i : Fin 4, ∑ j : Fin Nk, R i j) + ∑ i : Fin 4, tr i := by
  simp only [Finset.sum_add_distrib, Finset.sum_sub_distrib]
  rw [sum_roll1 hNk D]
  have hite : (∑ i : Fin 4, ∑ j : Fin Nk, (if j.val = 0 then tr i else 0)) =
      ∑ i : Fin 4, tr i :=
    Finset.sum_congr rfl (fun i _ => sum_ite_first Nk hNk (tr i))
  rw [hite]
  ring

/-- C1: whenever the derivative is returned (no invalid kinetics column),
its total over all components and compartments equals exactly the summed
net reaction term `S.dot(r)*wood_compartment_volume`; in particular, with
all reaction rates zero the total is exactly zero (liquor transfer and
intra-wood diffusion cancel pairwise). -/
theorem dxdt_total_reaction (p : Params) (Nk : ℕ) (hNk : 0 < Nk)
    (x : Flat Nk) (t : ℝ)
    (hvalid : ∀ j : Fin Nk, (ratesCol p Nk x t j).isSome) :
    dxdt p Nk x t = some (dxdtVal p Nk x t) ∧
    totalmass (dxdtVal p Nk x t) =
      ∑ i : Fin 4, ∑ j : Fin Nk,
        (∑ k : Fin 3, S i k * ratesValD p Nk x t k j) *
          wood_compartment_volume p Nk ∧
    ((∀ (k : Fin 3) (j : Fin Nk), ratesValD p Nk x t k j = 0) →
      totalmass (dxdtVal p Nk x t) = 0) := by
  have hmain : totalmass (dxdtVal p Nk x t) =
      ∑ i : Fin 4, ∑ j : Fin Nk,
        (∑ k : Fin 3, S i k * ratesValD p Nk x t k j) *
          wood_compartment_volume p Nk := by
    simp only [dxdtVal]
    rw [totalmass_flatx]
    rw [sum_wood_terms hNk
      (reactionTerm p Nk (ratesValD p Nk x t))
      (diffusion p Nk (temp p t) (unflatx Nk x).2)
      (transfer_rate p Nk (temp p t) (unflatx Nk x).1 (unflatx Nk x).2)]
    rw [Finset.sum_neg_distrib]
    simp only [reactionTerm]
    ring
  refine ⟨by rw [dxdt, if_pos hvalid], hmain, fun hz => ?_⟩
  rw [hmain]
  simp [hz]

/-- Witness for C1 at the all-zero one-compartment state: every kinetics
column is valid, so the derivative is returned. -/
theorem dxdt_total_reaction_witness :
    (0 : ℕ) < 1 ∧ dxdt pW 1 xZero1 0 = some (dxdtVal pW 1 xZero1 0) := by
  have hmf : mass_frac pW 1 xZero1 0 = 0 := by
    simp [mass_frac, unflatx, xget, xZero1, componentsMM, pW]
  have hreg : regime pW (mass_frac pW 1 xZero1 0) = Regime.residual := by
    rw [hmf, regime, if_neg (by norm_num [pW]), if_neg (by norm_num [pW])]
  have hv : ∀ j : Fin 1, (ratesCol pW 1 xZero1 0 j).isSome := by
    intro j
    have hcol : (unflatx 1 xZero1).2 2 j = 0 := by
      simp [unflatx, xget, xZero1]
    simp only [ratesCol, reaction_rates, hreg]
    simp [hcol, npow]
  exact ⟨by norm_num,
    (dxdt_total_reaction pW 1 (by norm_num) xZero1 0 hv).1⟩

/-- C10: every entry of `S` is non-positive (reaction 1 consumes only
Lignin, 2 only Carbohydrate, 3 only Alkali, Sulfur row zero); hence with
non-negative rates and volume the reaction contribution to every
component in every compartment is non-positive, and the Sulfur reaction
contribution is identically zero. -/
theorem S_reaction_nonpositive (p : Params) (Nk : ℕ)
    (hwv : 0 ≤ p.wood_volume) :
    (∀ (i : Fin 4) (k : Fin 3), S i k ≤ 0) ∧
    (∀ (i : Fin 4) (k : Fin 3),
      S i k = if i.val = k.val then -1 else 0) ∧
    (∀ rm : Fin 3 → Fin Nk → ℝ, (∀ k j, 0 ≤ rm k j) →
      ∀ (i : Fin 4) (j : Fin Nk), reactionTerm p Nk rm i j ≤ 0) ∧
    (∀ (rm : Fin 3 → Fin Nk → ℝ) (j : Fin Nk),
      reactionTerm p Nk rm 3 j = 0) := by
  have hS : ∀ (i : Fin 4) (k : Fin 3),
      S i k = if i.val = k.val then -1 else 0 := by
    intro i k
    fin_cases i <;> fin_cases k <;> norm_num [S, Sraw]
  have hS0 : ∀ (i : Fin 4) (k : Fin 3), S i k ≤ 0 := by
    intro i k
    rw [hS i k]
    split_ifs <;> norm_num
  have hV : 0 ≤ wood_compartment_volume p Nk :=
    div_nonneg hwv (Nat.cast_nonneg Nk)
  refine ⟨hS0, hS, ?_, ?_⟩
  · intro rm hrm i j
    simp only [reactionTerm]
    refine mul_nonpos_iff.2 (Or.inr ⟨?_, hV⟩)
    refine Finset.sum_nonpos (fun k _ => ?_)
    exact mul_nonpos_iff.2 (Or.inr ⟨hS0 i k, hrm k j⟩)
  · intro rm j
    simp only [reactionTerm]
    have h3 : ∀ k : Fin 3, S 3 k = 0 := by
      intro k
      fin_cases k <;> norm_num [S, Sraw]
    rw [Finset.sum_congr rfl (fun k _ => by rw [h3 k, zero_mul])]
    simp

/-- Witness for C10 at `pW`: non-negative wood volume, a sample
non-positive entry, and the vanishing Sulfur reaction contribution at the
all-ones rate matrix. -/
theorem S_reaction_nonpositive_witness :
    0 ≤ pW.wood_volume ∧ S 0 0 ≤ 0 ∧
    reactionTerm pW 1 (fun _ _ => 1) 3 0 = 0 := by
  have h : 0 ≤ pW.wood_volume := by norm_num [pW]
  exact ⟨h, (S_reaction_nonpositive pW 1 h).1 0 0,
    (S_reaction_nonpositive pW 1 h).2.2.2 (fun _ _ => 1) 0⟩

/-- C7 counterexample: two flat states that agree on the (unique) wood
column fed to the kinetics engine and on the temperature, yet produce
different rate vectors, because the regime is selected from the whole-wood
mass fractions: `xLig1` is in the bulk regime and `xZero1` in the residual
regime. -/
theorem reaction_rates_cross_coupling :
    (reaction_rates pW 1 colZero xLig1 1 []).2 ≠
      (reaction_rates pW 1 colZero xZero1 1 []).2 := by
  have hmfL : mass_frac pW 1 xLig1 0 = 0.6 := by
    norm_num [mass_frac, unflatx, xget, xLig1, componentsMM, pW,
      Fin.sum_univ_one]
  have hregL : regime pW (mass_frac pW 1 xLig1 0) = Regime.bulk := by
    rw [hmfL, regime, if_pos (by norm_num [pW])]
  have hmfZ : mass_frac pW 1 xZero1 0 = 0 := by
    simp [mass_frac, unflatx, xget, xZero1, componentsMM, pW]
  have hregZ : regime pW (mass_frac pW 1 xZero1 0) = Regime.residual := by
    rw [hmfZ, regime, if_neg (by norm_num [pW]), if_neg (by norm_num [pW])]
  have h05 : npow (1 : ℝ) 0.5 = some 1 := by
    rw [npow, if_neg (by norm_num), Real.one_rpow]
  have hz11 : npow (0 : ℝ) 0.11 = some 0 := by
    rw [npow, if_neg (by norm_num), Real.zero_rpow (by norm_num)]
  have hz07 : npow (0 : ℝ) 0.7 = some 0 := by
    rw [npow, if_neg (by norm_num), Real.zero_rpow (by norm_num)]
  have hL : ((reaction_rates pW 1 colZero xLig1 1 []).2).map (fun r => r 0) =
      some 0.01 := by
    simp only [reaction_rates, hregL]
    simp [colZero, pW, h05, hz11]
  have hZ : ((reaction_rates pW 1 colZero xZero1 1 []).2).map (fun r => r 0) =
      some 0 := by
    simp only [reaction_rates, hregZ]
    simp [colZero, pW, hz07]
  intro h
  rw [h, hZ] at hL
  have : (0 : ℝ) = 0.01 := by
    exact Option.some.inj hL
  norm_num at this

/-- C7 amended: the kinetics evaluation for a wood column depends on the
rest of the state only through the whole-wood mass fractions used for
regime selection: two states with equal mass-fraction vectors give
identical rates for the same column and temperature. -/
theorem reaction_rates_column_local (p : Params) (Nk : ℕ) (C : Fin 4 → ℝ)
    (T : ℝ) (store : List ℝ) (x1 x2 : Flat Nk)
    (h : ∀ i, mass_frac p Nk x1 i = mass_frac p Nk x2 i) :
    (reaction_rates p Nk C x1 T store).2 =
      (reaction_rates p Nk C x2 T store).2 := by
  have hf : mass_frac p Nk x1 = mass_frac p Nk x2 := funext h
  simp only [reaction_rates, hf]

/-- Witness for the amended C7: the states `xA2` (lignin 0.3/0.3) and
`xB2` (lignin 0.6/0.0) have the same mass fractions, hence the same
rates. -/
theorem reaction_rates_column_local_witness :
    (∀ i, mass_frac pW 2 xA2 i = mass_frac pW 2 xB2 i) ∧
    (reaction_rates pW 2 colZero xA2 1 []).2 =
      (reaction_rates pW 2 colZero xB2 1 []).2 := by
  have h : ∀ i, mass_frac pW 2 xA2 i = mass_frac pW 2 xB2 i := by
    intro i
    fin_cases i <;>
      norm_num [mass_frac, unflatx, xget, xA2, xB2, componentsMM, pW,
        Fin.sum_univ_two]
  exact ⟨h, reaction_rates_column_local pW 2 colZero 1 [] xA2 xB2 h⟩

end

end PulpSim
